import Mathlib

/-!
# Verification of the sheethub spreadsheet-cleaning core

Shallow embedding of `src/utils/header_detection.py` and
`src/utils/excel_cleaner.py`.  Cells are modelled as `Option Val` where a
`Val` is a text or integer cell value rendered to a string the way Python's
`str` renders it (ASCII model); `None` plays pandas' `NaN`.  Python string
operations (`lower`, `strip`, regular-expression character classes) are
modelled over ASCII, which covers every character class the source uses.
-/

namespace SheetHub

open scoped List

/-- ASCII model of Python's whitespace class `\s` = space, tab, newline,
carriage return, vertical tab, form feed. -/
def isSpaceC (c : Char) : Bool :=
  c == ' ' || c == '\t' || c == '\n' || c == '\r' || c == '\x0b' || c == '\x0c'

/-- ASCII model of Python's `str.lower` on one character. -/
def lowerChar (c : Char) : Char :=
  if c.isUpper then Char.ofNat (c.toNat + 32) else c

/-- ASCII model of the regex word class `\w`: letters, digits, underscore. -/
def isWordCharB (c : Char) : Bool :=
  c.isAlpha || c.isDigit || c == '_'

/-- Python `str.lower` (ASCII model). -/
def pyLower (s : String) : String :=
  ⟨s.data.map lowerChar⟩

/-- Python `str.strip()` (strip whitespace at both ends). -/
def pyStripList (l : List Char) : List Char :=
  ((l.dropWhile isSpaceC).reverse.dropWhile isSpaceC).reverse

/-- Python `str.strip()` on strings. -/
def pyStrip (s : String) : String :=
  ⟨pyStripList s.data⟩

/-- One decimal digit character. -/
def digitChar (d : Nat) : Char :=
  match d with
  | 0 => '0' | 1 => '1' | 2 => '2' | 3 => '3' | 4 => '4'
  | 5 => '5' | 6 => '6' | 7 => '7' | 8 => '8' | _ => '9'

/-- Decimal digits of a positive number, most significant first,
accumulated in front of `acc`; structural recursion on a fuel argument
(any fuel at least the number itself is enough, since `n / 10 < n`). -/
def natDigits : Nat → Nat → List Char → List Char
  | 0, _, acc => acc
  | _ + 1, 0, acc => acc
  | fuel + 1, n + 1, acc =>
    natDigits fuel ((n + 1) / 10) (digitChar ((n + 1) % 10) :: acc)

/-- Decimal rendering of a natural number, as Python's `str` produces it. -/
def natStr (n : Nat) : String :=
  if n = 0 then "0" else ⟨natDigits n n []⟩

/-- Does `needle` occur as a contiguous substring of `hay`?  Models
Python's `in` on strings. -/
def hasInfix (needle : List Char) : List Char → Bool
  | [] => needle.isEmpty
  | c :: t => needle.isPrefixOf (c :: t) || hasInfix needle t

/-- `str.startswith` (list-based, so it reduces in the kernel). -/
def strStartsWith (pre s : String) : Bool :=
  pre.data.isPrefixOf s.data

/-- A cell value: text, or an integer (the only non-text values the
embedding needs to distinguish; the row-order tags the cleaner attaches
are integers). -/
inductive Val where
  | vStr : String → Val
  | vNat : Nat → Val
deriving DecidableEq, Repr

/-- Python `str` on a cell value. -/
def render : Val → String
  | Val.vStr s => s
  | Val.vNat n => natStr n

/-- A cell: `none` is pandas `NaN`. -/
abbrev Cell := Option Val

/-- A raw sheet: a grid of cells, row major, as `pd.read_excel(...,
header=None)` produces it. -/
abbrev Grid := List (List Cell)

/-! ## `src/utils/header_detection.py` -/

/-- After one of the keywords `id`/`code`/`emp`: an optional `-` or `_`
separator followed by at least one digit (`[-_]?\d+`). -/
def sepDigit : List Char → Bool
  | [] => false
  | c :: t =>
    c.isDigit ||
      ((c == '-' || c == '_') &&
        (match t with
         | [] => false
         | d :: _ => d.isDigit))

/-- Does the list start with `(id|code|emp)[-_]?\d+`? -/
def idCodeMatchAt (l : List Char) : Bool :=
  (List.isPrefixOf ['i', 'd'] l && sepDigit (l.drop 2)) ||
  (List.isPrefixOf ['c', 'o', 'd', 'e'] l && sepDigit (l.drop 4)) ||
  (List.isPrefixOf ['e', 'm', 'p'] l && sepDigit (l.drop 3))

/-- `re.search(r"\b(id|code|emp)[-_]?\d+", ·)`: scan every position whose
predecessor is not a word character (the `\b` boundary; the keyword's own
first letter is a word character). -/
def idCodeSearch : Bool → List Char → Bool
  | _, [] => false
  | prevWord, c :: t =>
    (!prevWord && idCodeMatchAt (c :: t)) || idCodeSearch (isWordCharB c) t

/-- `is_header_like_cell` from `header_detection.py`: `NaN` and blank are
not header-like; neither is a purely numeric rendering
(`re.fullmatch(r"[0-9,.%]+", s)`) nor an identifier-code pattern. -/
def is_header_like_cell (c : Cell) : Bool :=
  match c with
  | none => false
  | some v =>
    let s := pyStrip (render v)
    if s.data.isEmpty then false
    else if s.data.all (fun ch => ch.isDigit || ch == ',' || ch == '.' || ch == '%') then
      false
    else if idCodeSearch false (pyLower s).data then false
    else true

/-- A cell whose rendering, with `.` and `,` removed, is all digits
(`str(v).replace(".","").replace(",","").isdigit()`); `NaN` cells count
as `False` exactly as in the source's generator expression. -/
def isNumericCellB (c : Cell) : Bool :=
  match c with
  | none => false
  | some v =>
    let t := (render v).data.filter (fun ch => !(ch == '.' || ch == ','))
    !t.isEmpty && t.all Char.isDigit

/-- A cell containing both a digit and an ASCII letter. -/
def isIdLikeCellB (c : Cell) : Bool :=
  match c with
  | none => false
  | some v => (render v).data.any Char.isDigit && (render v).data.any Char.isAlpha

/-- Count of distinct `str(v).strip().lower()` over the non-`NaN` cells of
a row (`len(set(...))`). -/
def uniqueValsCount (row : List Cell) : Nat :=
  ((row.filterMap id).map (fun v => pyLower (pyStrip (render v)))).dedup.length

/-- The candidate score of row `i`:
`3*header_like + unique_vals - 2*numeric_cells - id_like_cells + max(0, 10 - i)`. -/
def rowScore (i : Nat) (row : List Cell) : Int :=
  3 * (row.countP is_header_like_cell : Int)
    + (uniqueValsCount row : Int)
    - 2 * (row.countP isNumericCellB : Int)
    - (row.countP isIdLikeCellB : Int)
    + max 0 (10 - (i : Int))

/-- Is a row entirely empty (`row.notna().sum() == 0`)? -/
def rowAllNone (row : List Cell) : Bool :=
  row.all (fun c => c.isNone)

/-- The scan loop of `detect_header_row`: track the best row index and the
best score so far (`none` plays `float("-inf")`), skip entirely empty
rows, and replace the best row only on a strictly greater score. -/
def detectAux : Nat → Option Int → List (Nat × List Cell) → Nat
  | best, _, [] => best
  | best, bs, (i, row) :: rest =>
    if rowAllNone row then detectAux best bs rest
    else
      match bs with
      | none => detectAux i (some (rowScore i row)) rest
      | some b =>
        if b < rowScore i row then detectAux i (some (rowScore i row)) rest
        else detectAux best bs rest

/-- `detect_header_row`: scan at most the first 20 rows, starting from
`best_row = 0` and `best_score = -inf`. -/
def detect_header_row (g : Grid) : Nat :=
  detectAux 0 none (g.take 20).enum

/-! ## `src/utils/excel_cleaner.py` -/

/-- A labelled table: a pandas `DataFrame` with its column labels and its
rows (row major; the positional index ties a row entry to a column). -/
structure Table where
  cols : List String
  rows : List (List Cell)
deriving DecidableEq, Repr

/-- A row of cells. -/
abbrev Row := List Cell

/-- Does column `j` hold at least one non-missing value
(`dropna(axis=1, how="all")` keeps exactly such columns)? -/
def colNonEmpty (rows : List Row) (j : Nat) : Bool :=
  rows.any (fun r => (r.getD j none).isSome)

/-- `clean_single_sheet_from_raw(df_raw, header_idx)`:
carve the data body below the header row, drop entirely empty columns,
append the `__row_id__` tag column, build the header labels (truncated to
the current column count, padded with `column_<i>`, blank or
`unnamed`-prefixed labels replaced by `column_<i>`), assign them as the
column names — note this assignment also covers (and so renames) the
appended `__row_id__` column — then drop entirely empty rows and
entirely empty columns once more. -/
def clean_single_sheet_from_raw (g : Grid) (headerIdx : Nat) : Table :=
  let headerRow := g.getD headerIdx []
  let data0 := g.drop (headerIdx + 1)
  if data0.isEmpty then ⟨[], []⟩
  else
    let ncols := (g.headD []).length
    let keep := (List.range ncols).filter (colNonEmpty data0)
    let body := data0.map (fun r => keep.map (fun j => r.getD j none))
    let body := body.enum.map (fun p => p.2 ++ [some (Val.vNat p.1)])
    let w := keep.length + 1
    let hvals := (headerRow.take w).map
      (fun c => match c with | none => "" | some v => render v)
    let header := hvals ++
      (List.range' hvals.length (w - hvals.length)).map
        (fun i => "column_" ++ natStr i)
    let fixedCols := header.enum.map (fun p =>
      let c := pyStrip p.2
      if c ≠ "" ∧ ¬ (strStartsWith "unnamed" (pyLower c)) then c
      else "column_" ++ natStr p.1)
    let rows1 := body.filter (fun r => r.any (fun c => c.isSome))
    let keep2 := (List.range fixedCols.length).filter (colNonEmpty rows1)
    ⟨keep2.map (fun j => fixedCols.getD j ""),
     rows1.map (fun r => keep2.map (fun j => r.getD j none))⟩

/-- The `snake` helper of `standardize_column_names`:
`re.sub(r"[^\w\s]", "", str(s).lower())`, then `re.sub(r"\s+", "_", ...)`
collapsing every whitespace run to one underscore. -/
def collapseWsAux : Bool → List Char → List Char
  | _, [] => []
  | inRun, c :: cs =>
    if isSpaceC c then
      (if inRun then [] else ['_']) ++ collapseWsAux true cs
    else c :: collapseWsAux false cs

/-- `re.sub(r"\s+", "_", ·)`: each maximal whitespace run becomes one
underscore. -/
def collapseWs (l : List Char) : List Char :=
  collapseWsAux false l

/-- Python `.strip("_")`. -/
def trimUnder (l : List Char) : List Char :=
  ((l.dropWhile (fun c => c == '_')).reverse.dropWhile (fun c => c == '_')).reverse

/-- The character pipeline of `snake` before the `or "column"` fallback:
lowercase, delete every character that is neither word nor whitespace,
collapse whitespace runs to single underscores, strip edge underscores. -/
def snakeCore (l : List Char) : List Char :=
  trimUnder (collapseWs ((l.map lowerChar).filter
    (fun c => isWordCharB c || isSpaceC c)))

/-- `snake(s)` from `standardize_column_names` (the `or "column"` fallback
included). -/
def snake (s : String) : String :=
  let r := snakeCore s.data
  if r.isEmpty then "column" else ⟨r⟩

/-- The output name for the `n`-th (0-based) occurrence of a canonical
base name: the bare base first, then `base_1`, `base_2`, ... -/
def nthName (base : String) (n : Nat) : String :=
  if n = 0 then base else base ++ "_" ++ natStr n

/-- The `seen`-dictionary fold of `standardize_column_names`: `seen` maps
a canonical base to the number of occurrences already emitted (`List.lookup`
finds the most recent entry, matching dictionary update). -/
def stdFold : List String → List (String × Nat) → List String
  | [], _ => []
  | c :: cs, seen =>
    let base := snake c
    let n := ((seen.lookup base).getD 0)
    nthName base n :: stdFold cs ((base, n + 1) :: seen)

/-- `standardize_column_names` on the list of column labels. -/
def standardizeNames (cs : List String) : List String :=
  stdFold cs []

/-- `standardize_column_names` on a table (renames columns only). -/
def standardize_column_names (t : Table) : Table :=
  ⟨standardizeNames t.cols, t.rows⟩

/-- `pd.to_numeric(·, errors="coerce").notna()` on one value: integers are
numeric, a string is numeric when it is a decimal literal (optional sign,
digits, optional decimal point — the decimal forms `to_numeric` parses). -/
def valNumeric : Val → Bool
  | Val.vNat _ => true
  | Val.vStr s =>
    let l := s.data
    let l := match l with
      | c :: t => if c == '+' || c == '-' then t else l
      | [] => l
    match l.splitOn '.' with
    | [a] => !a.isEmpty && a.all Char.isDigit
    | [a, b] => !(a.isEmpty && b.isEmpty) && a.all Char.isDigit && b.all Char.isDigit
    | _ => false

/-- Should this column be dropped by `drop_unnamed_numeric_columns`?
Only synthetic `column_<n>` names are candidates; such a column is dropped
when it has no non-missing value at all, or when the fraction of its
non-missing values that parse as numbers is `>= 0.8` (stated over naturals
as `5 * numeric >= 4 * total`). -/
def junkCol (name : String) (vals : List Cell) : Bool :=
  strStartsWith "column_" name &&
    (let nonNull := vals.filterMap id
     nonNull.isEmpty || decide (5 * nonNull.countP valNumeric ≥ 4 * nonNull.length))

/-- `drop_unnamed_numeric_columns(df)` (default threshold 0.8). -/
def drop_unnamed_numeric_columns (t : Table) : Table :=
  let keep := (List.range t.cols.length).filter (fun j =>
    !(junkCol (t.cols.getD j "") (t.rows.map (fun r => r.getD j none))))
  ⟨keep.map (fun j => t.cols.getD j ""),
   t.rows.map (fun r => keep.map (fun j => r.getD j none))⟩

/-- Is this record a summary row: does any non-missing field, rendered as
lowercase text, contain one of the (lowercased) keywords as a substring? -/
def isSummaryRow (keys : List String) (r : Row) : Bool :=
  r.any (fun c =>
    match c with
    | none => false
    | some v => keys.any (fun k => hasInfix k.data (pyLower (render v)).data))

/-- `remove_summary_rows(df, keywords)`. -/
def remove_summary_rows (t : Table) (keywords : List String) : Table :=
  let keys := keywords.map pyLower
  ⟨t.cols, t.rows.filter (fun r => !isSummaryRow keys r)⟩

/-- The completeness score `df.notna().sum(axis=1)` of one record. -/
def completeness (r : Row) : Nat :=
  r.countP (fun c => c.isSome)

/-- Insert a record into a completeness-descending list, after every
record whose score is at least as large. -/
def insertRowDesc (r : Row) : List Row → List Row
  | [] => [r]
  | x :: xs =>
    if completeness r ≤ completeness x then x :: insertRowDesc r xs
    else r :: x :: xs

/-- One concrete completeness-descending reordering (an insertion sort),
standing in for `df.sort_values("_score", ascending=False)` in the
executable model.  The source uses the default `kind='quicksort'`, which
does not specify the relative order of equal scores, so no deduplication
property may rely on this particular tie order: the dedup theorems are
stated over every completeness-descending permutation through
`smart_dedup_sorted`, and the concrete pipeline evaluations only ever
sort two records, where the library sort is known to preserve the
original order of a tie. -/
def sortRowsDesc (l : List Row) : List Row :=
  l.foldl (fun acc r => insertRowDesc r acc) []

/-- `drop_duplicates(subset=..., keep="first")`: keep the first record for
each key already-unseen, in the order given. -/
def dedupKeepFirst (key : Row → Row) (seen : List Row) : List Row → List Row
  | [] => []
  | r :: rs =>
    if key r ∈ seen then dedupKeepFirst key seen rs
    else r :: dedupKeepFirst key (key r :: seen) rs

/-- The values of a record at the named key columns (positional lookup of
each column label). -/
def keyProj (cols : List String) (sub : List String) (r : Row) : Row :=
  sub.map (fun k => r.getD (cols.findIdx (fun c => c == k)) none)

/-- `smart_deduplicate(df, subset)`: restrict the key list to the columns
that exist; with no surviving key fall back to full-row
`drop_duplicates()`; otherwise score every record by completeness, sort
descending, and keep the first record of each key combination.
(The temporary `_score` column is computed before it is added and dropped
at the end, so it never feeds the key comparison; the model therefore
keeps the score out of the table.  The sort's tie order is the model's
`sortRowsDesc`; the library's own tie order is unspecified, see
`smart_dedup_sorted`.) -/
def smart_deduplicate (t : Table) (subset : List String) : Table :=
  let sub := subset.filter (fun c => t.cols.contains c)
  if sub.isEmpty then ⟨t.cols, dedupKeepFirst id [] t.rows⟩
  else ⟨t.cols, dedupKeepFirst (keyProj t.cols sub) [] (sortRowsDesc t.rows)⟩

/-- `smart_deduplicate` as a function of the completeness-descending
record order `s` that the sort stage produced.  Because the source sorts
with the default unstable kind, `s` can be any reordering of the records
that is sorted by weakly decreasing completeness; `smart_deduplicate`
itself is the instance at `sortRowsDesc t.rows`. -/
def smart_dedup_sorted (t : Table) (subset : List String) (s : List Row) : Table :=
  let sub := subset.filter (fun c => t.cols.contains c)
  if sub.isEmpty then ⟨t.cols, dedupKeepFirst id [] t.rows⟩
  else ⟨t.cols, dedupKeepFirst (keyProj t.cols sub) [] s⟩

/-- `df.dropna()`: drop every record with at least one missing field. -/
def dropMissingRows (t : Table) : Table :=
  ⟨t.cols, t.rows.filter (fun r => r.all (fun c => c.isSome))⟩

/-- Integer sort key of a cell of the row-order column. -/
def cellNatKey (c : Cell) : Nat :=
  match c with
  | some (Val.vNat n) => n
  | _ => 0

/-- Stable ascending insertion on the row-order key. -/
def insertRowAsc (j : Nat) (r : Row) : List Row → List Row
  | [] => [r]
  | x :: xs =>
    if cellNatKey (x.getD j none) ≤ cellNatKey (r.getD j none) then
      x :: insertRowAsc j r xs
    else r :: x :: xs

/-- `df.sort_values("__row_id__").drop(columns="__row_id__")`: stable
ascending sort on the tag column, then remove it. -/
def restoreOrder (t : Table) : Table :=
  let j := t.cols.findIdx (fun c => c == "__row_id__")
  let sorted := t.rows.foldl (fun acc r => insertRowAsc j r acc) []
  ⟨t.cols.eraseIdx j, sorted.map (fun r => r.eraseIdx j)⟩

/-- The cleaning option flags of `smart_clean_sheets_from_bytes` (the
`dup_subset_map` parameter is ignored by the source: the dedup key is the
hardcoded `["employeeid"]`). -/
structure CleanOptions where
  applyStandardize : Bool
  removeSummary : Bool
  summaryKeywords : List String
  removeDupes : Bool
  dropMissing : Bool
deriving DecidableEq, Repr

/-- The per-sheet body of the loop in `smart_clean_sheets_from_bytes`:
detect the header, normalize, then the optional standardize / summary
filter / dedup stages, the unconditional junk-column drop, the optional
`dropna()`, and the final restore-order step guarded by the presence of a
`__row_id__` column. -/
def processSheet (opts : CleanOptions) (g : Grid) : Table :=
  if g.isEmpty then ⟨[], []⟩
  else
    let t := clean_single_sheet_from_raw g (detect_header_row g)
    let t := if opts.applyStandardize then standardize_column_names t else t
    let t := if opts.removeSummary then remove_summary_rows t opts.summaryKeywords else t
    let t := if opts.removeDupes then smart_deduplicate t ["employeeid"] else t
    let t := drop_unnamed_numeric_columns t
    let t := if opts.dropMissing then dropMissingRows t else t
    if t.cols.contains "__row_id__" then restoreOrder t else t

/-- `smart_clean_sheets_from_bytes` after decoding: clean every sheet of
the workbook independently. -/
def smart_clean_sheets (opts : CleanOptions) (sheets : List (String × Grid)) :
    List (String × Table) :=
  sheets.map (fun p => (p.1, processSheet opts p.2))

/-- The per-sheet pipeline in the order the claim asserts: junk-column
elimination strictly after standardization and strictly before
deduplication.  (Stated from the claim's words, for comparison with
`processSheet`.) -/
def processSheetJunkBeforeDedup (opts : CleanOptions) (g : Grid) : Table :=
  if g.isEmpty then ⟨[], []⟩
  else
    let t := clean_single_sheet_from_raw g (detect_header_row g)
    let t := if opts.applyStandardize then standardize_column_names t else t
    let t := if opts.removeSummary then remove_summary_rows t opts.summaryKeywords else t
    let t := drop_unnamed_numeric_columns t
    let t := if opts.removeDupes then smart_deduplicate t ["employeeid"] else t
    let t := if opts.dropMissing then dropMissingRows t else t
    if t.cols.contains "__row_id__" then restoreOrder t else t

/-- Rows sorted by weakly decreasing completeness. -/
abbrev SortedDesc (l : List Row) : Prop :=
  l.Pairwise (fun a b => completeness b ≤ completeness a)

/-- The effective record identity `smart_deduplicate` deduplicates on:
the projection to the key columns that exist, or the whole record when no
key column exists (full-row `drop_duplicates` fallback). -/
def dedupKey (t : Table) (subset : List String) : Row → Row :=
  let sub := subset.filter (fun c => t.cols.contains c)
  if sub.isEmpty then id else keyProj t.cols sub

/-- Specification-side restatement of the standardizer's collision
handling: the name emitted for a column is determined by counting, among
the previously processed columns `pre`, those with the same canonical
form (the first occurrence keeps the bare name, the n-th gets `_n`). -/
def specNamesAux (pre : List String) : List String → List String
  | [] => []
  | c :: cs =>
    nthName (snake c) (pre.countP (fun x => snake x == snake c)) ::
      specNamesAux (pre ++ [c]) cs

/-- The count-based restatement of `standardize_column_names`. -/
def specNames (cs : List String) : List String :=
  specNamesAux [] cs

/-- Value of a decimal digit string (used to invert `natStr`). -/
def digitsVal (l : List Char) : Nat :=
  l.foldl (fun a c => 10 * a + (c.toNat - 48)) 0

/-! ## Sample inputs -/

/-- A text cell. -/
def tcell (s : String) : Cell := some (Val.vStr s)

/-- An integer cell. -/
def ncell (n : Nat) : Cell := some (Val.vNat n)

/-- All option flags off. -/
def optsOff : CleanOptions := ⟨false, false, [], false, false⟩

/-- Only deduplication on. -/
def optsDedup : CleanOptions := ⟨false, false, [], true, false⟩

/-- A sheet whose raw grid has one entirely empty column: the header row
is `A B C`, the body's third column is empty. -/
def gridABC : Grid :=
  [[tcell "A", tcell "B", tcell "C"],
   [tcell "x", tcell "y", none],
   [tcell "z", tcell "w", none]]

/-- A two-column employee sheet whose records have different completeness
(`E1` misses its name). -/
def gridEmp : Grid :=
  [[tcell "employeeid", tcell "name"],
   [tcell "E1", none],
   [tcell "E2", tcell "Bob"]]

/-- A sheet with a junk numeric column `column_2` (blank header cell) that
breaks a completeness tie between two records with the same employee id. -/
def gridJunkTie : Grid :=
  [[tcell "employeeid", tcell "name", none],
   [tcell "E1", none, ncell 7],
   [tcell "E1", tcell "Alice", none]]

/-- A header row over a body whose second data row is entirely empty. -/
def gridEmptyRow : Grid :=
  [[tcell "A", tcell "B"],
   [tcell "x", tcell "y"],
   [none, none]]

/-! ## Theorems -/

/-- C1: the pipeline does NOT restore original order and does NOT strip
the row-order tag.  `clean_single_sheet_from_raw` assigns header labels
across all current columns, including the appended `__row_id__` column,
so the tag column is renamed before the pipeline's final
`"__row_id__" in df.columns` check can ever see it.  On `gridABC`
(one all-empty raw column, so the tag column receives the leftover header
label `C`) the tag values 0 and 1 survive in the public result under the
column name `C`; on `gridEmp` with deduplication on, the output keeps the
records in completeness-sorted order (`E2` before `E1`), not original
document order. -/
theorem C1_tag_leaks_and_order_not_restored :
    smart_clean_sheets optsOff [("s", gridABC)] =
      [("s", ⟨["A", "B", "C"],
        [[tcell "x", tcell "y", ncell 0],
         [tcell "z", tcell "w", ncell 1]]⟩)] ∧
    smart_clean_sheets optsDedup [("s", gridEmp)] =
      [("s", ⟨["employeeid", "name"],
        [[tcell "E2", tcell "Bob"], [tcell "E1", none]]⟩)] := by
  constructor <;> rfl

/-- C3 counterexample: junk-column elimination is NOT applied before
deduplication.  On `gridJunkTie` the junk column `column_2` (and the
relabelled tag column `column_3`) feed the completeness scores: the
pipeline keeps the `E1` record with the missing name, while the claimed
order (junk elimination before deduplication) would keep the record with
`Alice`. -/
theorem C3_junk_drop_not_before_dedup :
    processSheet optsDedup gridJunkTie ≠
      processSheetJunkBeforeDedup optsDedup gridJunkTie := by
  decide

/-- C3 amended: in the per-sheet pipeline, junk-column elimination runs
strictly AFTER deduplication (and after the optional standardize and
summary-filter stages), so junk columns do contribute to the completeness
scores used for choosing among duplicates: there is an input where the
code's order and the claimed order produce different tables. -/
theorem C3_junk_drop_after_dedup :
    (∀ (opts : CleanOptions) (g : Grid),
      processSheet opts g =
        (if g.isEmpty then (⟨[], []⟩ : Table)
         else
           let t := clean_single_sheet_from_raw g (detect_header_row g)
           let t := if opts.applyStandardize then standardize_column_names t else t
           let t :=
             if opts.removeSummary then remove_summary_rows t opts.summaryKeywords else t
           let t :=
             drop_unnamed_numeric_columns
               (if opts.removeDupes then smart_deduplicate t ["employeeid"] else t)
           let t := if opts.dropMissing then dropMissingRows t else t
           if t.cols.contains "__row_id__" then restoreOrder t else t)) ∧
    (∃ (opts : CleanOptions) (g : Grid),
      processSheet opts g ≠ processSheetJunkBeforeDedup opts g) := by
  refine ⟨fun opts g => rfl, ⟨optsDedup, gridJunkTie, by decide⟩⟩

/-- C4: normalization does NOT drop rows that are entirely empty across
the body columns: the `__row_id__` tag is attached before the row-level
`dropna(how="all")`, so every row has a non-missing field and the drop is
vacuous.  On `gridEmptyRow` the all-empty body row survives (with only
its tag value set). -/
theorem C4_empty_body_row_not_dropped :
    clean_single_sheet_from_raw gridEmptyRow 0 =
      ⟨["A", "B", "column_2"],
       [[tcell "x", tcell "y", ncell 0],
        [none, none, ncell 1]]⟩ := by
  rfl

/-- C6 counterexample: the standardizer does not replace `%` with `pct`
nor `&` with `and`; both are stripped like any other punctuation. -/
theorem C6_pct_and_not_inserted :
    snake "Profit %" = "profit" ∧ snake "Profit %" ≠ "profit_pct" ∧
    snake "P & L" = "p_l" ∧ snake "P & L" ≠ "p_and_l" := by
  refine ⟨rfl, by decide, rfl, by decide⟩

/-- C7 counterexample: the standardizer CAN emit colliding names: on
`["a", "a", "a_1"]` the second `a` is suffixed to `a_1`, which collides
with the canonical form of the third column. -/
theorem C7_collision_possible :
    standardizeNames ["a", "a", "a_1"] = ["a", "a_1", "a_1"] ∧
    ¬ (standardizeNames ["a", "a", "a_1"]).Nodup := by
  refine ⟨rfl, by decide⟩

/-- C9 counterexample: standardization is NOT idempotent: on
`["a", "a", "a_1"]` the first pass emits the colliding list
`["a", "a_1", "a_1"]`, and the second pass renames the repeated `a_1`
to `a_1_1`. -/
theorem C9_not_idempotent :
    standardizeNames (standardizeNames ["a", "a", "a_1"]) ≠
      standardizeNames ["a", "a", "a_1"] := by
  decide

/-- C10: `smart_deduplicate` keys are silently restricted to the columns
that exist; the full-row fallback fires exactly when the key list is
empty or no key names an existing column. -/
theorem C10_missing_keys_ignored (t : Table) (keys : List String) :
    smart_deduplicate t keys =
      smart_deduplicate t (keys.filter (fun c => t.cols.contains c)) ∧
    ((keys = [] ∨ ∀ k ∈ keys, t.cols.contains k = false) →
      smart_deduplicate t keys = ⟨t.cols, dedupKeepFirst id [] t.rows⟩) ∧
    ((∃ k ∈ keys, t.cols.contains k = true) →
      smart_deduplicate t keys =
        ⟨t.cols,
         dedupKeepFirst (keyProj t.cols (keys.filter (fun c => t.cols.contains c))) []
           (sortRowsDesc t.rows)⟩) := by
  refine ⟨?_, ?_, ?_⟩
  · simp only [smart_deduplicate, List.filter_filter, Bool.and_self]
  · intro h
    have hnil : keys.filter (fun c => t.cols.contains c) = [] := by
      rcases h with h | h
      · simp [h]
      · exact List.filter_eq_nil_iff.mpr (fun a ha => by rw [h a ha]; simp)
    simp only [smart_deduplicate, hnil]
    rfl
  · intro h
    rcases h with ⟨k, hk, hmem⟩
    have hne : ¬ (keys.filter (fun c => t.cols.contains c)).isEmpty = true := by
      simp only [List.isEmpty_iff, List.filter_eq_nil_iff]
      intro hall
      exact hall k hk hmem
    simp only [smart_deduplicate, if_neg hne]

/-- C10 witness: on a table without the named key column the fallback
branch is taken. -/
theorem C10_missing_keys_ignored_witness :
    smart_deduplicate ⟨["a"], [[tcell "x"], [tcell "x"]]⟩ ["zz"] =
      ⟨["a"], dedupKeepFirst id [] [[tcell "x"], [tcell "x"]]⟩ :=
  (C10_missing_keys_ignored ⟨["a"], [[tcell "x"], [tcell "x"]]⟩ ["zz"]).2.1
    (Or.inr (by decide))

/-- `hasInfix` decides the substring (contiguous infix) relation. -/
theorem hasInfix_iff (n : List Char) (l : List Char) :
    hasInfix n l = true ↔ n <:+: l := by
  induction l with
  | nil =>
    simp [hasInfix, List.isEmpty_iff]
  | cons c t ih =>
    simp [hasInfix, ih, List.infix_cons_iff]

/-- A record is summary-flagged iff one of its present values contains
one of the keywords. -/
theorem isSummaryRow_iff (keys : List String) (r : Row) :
    isSummaryRow keys r = true ↔
      ∃ v : Val, some v ∈ r ∧ ∃ k ∈ keys, hasInfix k.data (pyLower (render v)).data := by
  constructor
  · intro h
    rcases List.any_eq_true.mp h with ⟨c, hc, hm⟩
    cases c with
    | none => simp at hm
    | some v =>
      exact ⟨v, hc, by simpa using List.any_eq_true.mp hm⟩
  · rintro ⟨v, hv, k, hk, hinf⟩
    exact List.any_eq_true.mpr ⟨some v, hv, List.any_eq_true.mpr ⟨k, hk, hinf⟩⟩

/-- C8: summary-row filtering removes exactly the records containing a
keyword (case-insensitively) in some present field, preserves the
relative order of the survivors, never grows the table, and an empty
keyword list returns the table unchanged. -/
theorem C8_remove_summary_rows_correct (t : Table) (kws : List String) :
    (remove_summary_rows t kws).rows.Sublist t.rows ∧
    (remove_summary_rows t kws).rows.length ≤ t.rows.length ∧
    (remove_summary_rows t kws).cols = t.cols ∧
    (∀ r, r ∈ (remove_summary_rows t kws).rows ↔
      r ∈ t.rows ∧
        ¬ ∃ v : Val, some v ∈ r ∧ ∃ k ∈ kws,
            (pyLower k).data <:+: (pyLower (render v)).data) ∧
    (kws = [] → remove_summary_rows t kws = t) := by
  refine ⟨List.filter_sublist _, (List.filter_sublist _).length_le, rfl, ?_, ?_⟩
  · intro r
    simp only [remove_summary_rows, List.mem_filter, Bool.not_eq_true',
      ← Bool.not_eq_true (isSummaryRow _ r), isSummaryRow_iff]
    constructor
    · rintro ⟨hmem, hno⟩
      refine ⟨hmem, fun hex => hno ?_⟩
      rcases hex with ⟨v, hv, k, hk, hinf⟩
      exact ⟨v, hv, pyLower k, List.mem_map_of_mem pyLower hk, (hasInfix_iff _ _).mpr hinf⟩
    · rintro ⟨hmem, hno⟩
      refine ⟨hmem, fun hex => hno ?_⟩
      rcases hex with ⟨v, hv, k2, hk2, hinf⟩
      rcases List.mem_map.mp hk2 with ⟨k, hk, rfl⟩
      exact ⟨v, hv, k, hk, (hasInfix_iff _ _).mp hinf⟩
  · intro h
    subst h
    obtain ⟨cols, rows⟩ := t
    simp only [remove_summary_rows, List.map_nil, Table.mk.injEq, true_and]
    apply List.filter_eq_self.mpr
    intro r _
    have hs : isSummaryRow [] r = false := by
      apply List.any_eq_false.mpr
      intro c _
      cases c <;> simp
    simp [hs]

/-- C8 witness: a concrete total row is removed, the data rows survive in
order. -/
theorem C8_remove_summary_rows_witness :
    remove_summary_rows
        ⟨["a"], [[tcell "x"], [tcell "Total"], [tcell "y"]]⟩ ["total"] =
      ⟨["a"], [[tcell "x"], [tcell "y"]]⟩ ∧
    remove_summary_rows ⟨["a"], [[tcell "x"]]⟩ [] = ⟨["a"], [[tcell "x"]]⟩ :=
  ⟨by rfl, (C8_remove_summary_rows_correct ⟨["a"], [[tcell "x"]]⟩ []).2.2.2.2 rfl⟩

/-- With a finite best score `b` in hand, the scan either keeps `best`
(and then every scoreable remaining row scores at most `b`), or lands on
a scoreable remaining row that strictly beats `b`, scores maximally, and
is the earliest maximal one. -/
theorem detectAux_some_spec (l : List (Nat × List Cell)) :
    ∀ (best : Nat) (b : Int),
    List.Pairwise (fun p q => p.1 < q.1) l →
    (detectAux best (some b) l = best ∧
      ∀ p ∈ l.filter (fun p => !rowAllNone p.2), rowScore p.1 p.2 ≤ b) ∨
    (∃ row, (detectAux best (some b) l, row) ∈ l.filter (fun p => !rowAllNone p.2) ∧
      b < rowScore (detectAux best (some b) l) row ∧
      (∀ p ∈ l.filter (fun p => !rowAllNone p.2),
        rowScore p.1 p.2 ≤ rowScore (detectAux best (some b) l) row) ∧
      (∀ p ∈ l.filter (fun p => !rowAllNone p.2),
        p.1 < detectAux best (some b) l →
          rowScore p.1 p.2 < rowScore (detectAux best (some b) l) row)) := by
  induction l with
  | nil =>
    intro best b _
    exact Or.inl ⟨rfl, by simp⟩
  | cons hd rest ih =>
    intro best b hpw
    obtain ⟨i, row⟩ := hd
    have hpw' := (List.pairwise_cons.mp hpw).2
    have hidx : ∀ p ∈ rest, i < p.1 := (List.pairwise_cons.mp hpw).1
    by_cases hskip : rowAllNone row = true
    · have heq : detectAux best (some b) ((i, row) :: rest) = detectAux best (some b) rest := by
        simp [detectAux, hskip]
      have hfil : ((i, row) :: rest).filter (fun p => !rowAllNone p.2) =
          rest.filter (fun p => !rowAllNone p.2) := by
        simp [List.filter_cons, hskip]
      rw [heq, hfil]
      exact ih best b hpw'
    · have hfil : ((i, row) :: rest).filter (fun p => !rowAllNone p.2) =
          (i, row) :: rest.filter (fun p => !rowAllNone p.2) := by
        simp [List.filter_cons, hskip]
      by_cases hlt : b < rowScore i row
      · have heq : detectAux best (some b) ((i, row) :: rest) =
            detectAux i (some (rowScore i row)) rest := by
          simp [detectAux, hskip, hlt]
        rw [heq, hfil]
        rcases ih i (rowScore i row) hpw' with ⟨hres, hmax⟩ | ⟨row2, hmem, hbeat, hmax, hfirst⟩
        · refine Or.inr ⟨row, ?_, ?_, ?_, ?_⟩
          · rw [hres]; exact List.mem_cons_self _ _
          · rw [hres]; exact hlt
          · intro p hp
            rw [hres]
            rcases List.mem_cons.mp hp with rfl | hp
            · exact le_refl _
            · exact hmax p hp
          · intro p hp hplt
            rw [hres] at hplt ⊢
            rcases List.mem_cons.mp hp with rfl | hp
            · exact absurd hplt (lt_irrefl _)
            · have : i < p.1 := hidx p (List.mem_of_mem_filter hp)
              omega
        · refine Or.inr ⟨row2, List.mem_cons_of_mem _ hmem, lt_trans hlt hbeat, ?_, ?_⟩
          · intro p hp
            rcases List.mem_cons.mp hp with rfl | hp
            · exact le_of_lt hbeat
            · exact hmax p hp
          · intro p hp hplt
            rcases List.mem_cons.mp hp with rfl | hp
            · exact hbeat
            · exact hfirst p hp hplt
      · have heq : detectAux best (some b) ((i, row) :: rest) =
            detectAux best (some b) rest := by
          simp [detectAux, hskip, hlt]
        rw [heq, hfil]
        rcases ih best b hpw' with ⟨hres, hmax⟩ | ⟨row2, hmem, hbeat, hmax, hfirst⟩
        · refine Or.inl ⟨hres, ?_⟩
          intro p hp
          rcases List.mem_cons.mp hp with rfl | hp
          · dsimp only; omega
          · exact hmax p hp
        · refine Or.inr ⟨row2, List.mem_cons_of_mem _ hmem, hbeat, ?_, ?_⟩
          · intro p hp
            rcases List.mem_cons.mp hp with rfl | hp
            · dsimp only; omega
            · exact hmax p hp
          · intro p hp hplt
            rcases List.mem_cons.mp hp with rfl | hp
            · dsimp only; omega
            · exact hfirst p hp hplt

/-- Starting from `best_row = 0`, `best_score = -inf`: with no scoreable
row the scan returns the initial index; otherwise it returns a scoreable
row of maximal score, the earliest such row. -/
theorem detectAux_none_spec (l : List (Nat × List Cell)) :
    ∀ (b0 : Nat),
    List.Pairwise (fun p q => p.1 < q.1) l →
    (l.filter (fun p => !rowAllNone p.2) = [] → detectAux b0 none l = b0) ∧
    (l.filter (fun p => !rowAllNone p.2) ≠ [] →
      ∃ row, (detectAux b0 none l, row) ∈ l.filter (fun p => !rowAllNone p.2) ∧
        (∀ p ∈ l.filter (fun p => !rowAllNone p.2),
          rowScore p.1 p.2 ≤ rowScore (detectAux b0 none l) row) ∧
        (∀ p ∈ l.filter (fun p => !rowAllNone p.2),
          p.1 < detectAux b0 none l →
            rowScore p.1 p.2 < rowScore (detectAux b0 none l) row)) := by
  induction l with
  | nil =>
    intro b0 _
    exact ⟨fun _ => rfl, fun h => absurd rfl h⟩
  | cons hd rest ih =>
    intro b0 hpw
    obtain ⟨i, row⟩ := hd
    have hpw' := (List.pairwise_cons.mp hpw).2
    have hidx : ∀ p ∈ rest, i < p.1 := (List.pairwise_cons.mp hpw).1
    by_cases hskip : rowAllNone row = true
    · have heq : detectAux b0 none ((i, row) :: rest) = detectAux b0 none rest := by
        simp [detectAux, hskip]
      have hfil : ((i, row) :: rest).filter (fun p => !rowAllNone p.2) =
          rest.filter (fun p => !rowAllNone p.2) := by
        simp [List.filter_cons, hskip]
      rw [heq, hfil]
      exact ih b0 hpw'
    · have hfil : ((i, row) :: rest).filter (fun p => !rowAllNone p.2) =
          (i, row) :: rest.filter (fun p => !rowAllNone p.2) := by
        simp [List.filter_cons, hskip]
      have heq : detectAux b0 none ((i, row) :: rest) =
          detectAux i (some (rowScore i row)) rest := by
        simp [detectAux, hskip]
      rw [heq, hfil]
      refine ⟨fun h => absurd h (by simp), fun _ => ?_⟩
      rcases detectAux_some_spec rest i (rowScore i row) hpw' with
        ⟨hres, hmax⟩ | ⟨row2, hmem, hbeat, hmax, hfirst⟩
      · refine ⟨row, ?_, ?_, ?_⟩
        · rw [hres]; exact List.mem_cons_self _ _
        · intro p hp
          rw [hres]
          rcases List.mem_cons.mp hp with rfl | hp
          · exact le_refl _
          · exact hmax p hp
        · intro p hp hplt
          rw [hres] at hplt ⊢
          rcases List.mem_cons.mp hp with rfl | hp
          · exact absurd hplt (lt_irrefl _)
          · have : i < p.1 := hidx p (List.mem_of_mem_filter hp)
            omega
      · refine ⟨row2, List.mem_cons_of_mem _ hmem, ?_, ?_⟩
        · intro p hp
          rcases List.mem_cons.mp hp with rfl | hp
          · exact le_of_lt hbeat
          · exact hmax p hp
        · intro p hp hplt
          rcases List.mem_cons.mp hp with rfl | hp
          · exact hbeat
          · exact hfirst p hp hplt

/-- C2: `detect_header_row` returns 0 when no row among the first
`min(len, 20)` has a non-empty cell; otherwise it returns the index,
inside `[0, min(len, 20))`, of a non-skipped row whose score
`3*header_like + unique_vals - 2*numeric_cells - id_like_cells +
max(0, 10 - i)` (see `rowScore`) is maximal, and the earliest row
achieving that maximum (the strict greater-than comparison keeps the
first maximum). -/
theorem C2_detect_header_row_correct (g : Grid) :
    ((g.take 20).enum.filter (fun p => !rowAllNone p.2) = [] →
      detect_header_row g = 0) ∧
    ((g.take 20).enum.filter (fun p => !rowAllNone p.2) ≠ [] →
      detect_header_row g < min g.length 20 ∧
      ∃ row, (detect_header_row g, row) ∈
          (g.take 20).enum.filter (fun p => !rowAllNone p.2) ∧
        (∀ p ∈ (g.take 20).enum.filter (fun p => !rowAllNone p.2),
          rowScore p.1 p.2 ≤ rowScore (detect_header_row g) row) ∧
        (∀ p ∈ (g.take 20).enum.filter (fun p => !rowAllNone p.2),
          p.1 < detect_header_row g →
            rowScore p.1 p.2 < rowScore (detect_header_row g) row)) := by
  have hpw : List.Pairwise (fun p q : Nat × List Cell => p.1 < q.1) (g.take 20).enum := by
    have h1 : List.Pairwise (· < ·) (List.map Prod.fst (g.take 20).enum) := by
      rw [List.enum_map_fst]
      exact List.pairwise_lt_range _
    exact List.pairwise_map.mp h1
  have hspec := detectAux_none_spec (g.take 20).enum 0 hpw
  refine ⟨hspec.1, fun hne => ?_⟩
  rcases hspec.2 hne with ⟨row, hmem, hmax, hfirst⟩
  refine ⟨?_, row, hmem, hmax, hfirst⟩
  have hmem' : (detect_header_row g, row) ∈ (g.take 20).enum :=
    List.mem_of_mem_filter hmem
  have : detect_header_row g ∈ List.map Prod.fst (g.take 20).enum :=
    List.mem_map_of_mem Prod.fst hmem'
  rw [List.enum_map_fst, List.mem_range, List.length_take] at this
  omega

/-- C2 witness: a concrete grid (data rows below a label row) where the
bound and the argmax hold. -/
theorem C2_detect_header_row_witness :
    detect_header_row gridEmp < min gridEmp.length 20 :=
  ((C2_detect_header_row_correct gridEmp).2 (by decide)).1

/-! ### Deduplication: sortedness, stability, first-occurrence lemmas -/

theorem insertRowDesc_perm (r : Row) (l : List Row) :
    insertRowDesc r l ~ r :: l := by
  induction l with
  | nil => exact List.Perm.refl _
  | cons x xs ih =>
    by_cases h : completeness r ≤ completeness x
    · simp only [insertRowDesc, if_pos h]
      exact (ih.cons x).trans (List.Perm.swap r x xs)
    · simp only [insertRowDesc, if_neg h]
      exact List.Perm.refl _

theorem mem_insertRowDesc {y r : Row} {l : List Row} :
    y ∈ insertRowDesc r l ↔ y = r ∨ y ∈ l := by
  rw [(insertRowDesc_perm r l).mem_iff]
  simp

theorem insertRowDesc_sorted (r : Row) (l : List Row) (h : SortedDesc l) :
    SortedDesc (insertRowDesc r l) := by
  induction l with
  | nil => exact List.pairwise_singleton _ _
  | cons x xs ih =>
    rcases List.pairwise_cons.mp h with ⟨hx, hxs⟩
    by_cases hle : completeness r ≤ completeness x
    · simp only [insertRowDesc, if_pos hle]
      refine List.pairwise_cons.mpr ⟨?_, ih hxs⟩
      intro y hy
      rcases mem_insertRowDesc.mp hy with rfl | hy
      · exact hle
      · exact hx y hy
    · simp only [insertRowDesc, if_neg hle]
      refine List.pairwise_cons.mpr ⟨?_, h⟩
      intro y hy
      rcases List.mem_cons.mp hy with rfl | hy
      · omega
      · exact le_trans (hx y hy) (by omega)

theorem sortRowsDesc_perm_aux (l : List Row) :
    ∀ acc : List Row, l.foldl (fun a r => insertRowDesc r a) acc ~ l ++ acc := by
  induction l with
  | nil => intro acc; simp
  | cons r rest ih =>
    intro acc
    calc rest.foldl (fun a r => insertRowDesc r a) (insertRowDesc r acc)
        ~ rest ++ insertRowDesc r acc := ih _
      _ ~ rest ++ r :: acc := List.Perm.append_left rest (insertRowDesc_perm r acc)
      _ ~ r :: (rest ++ acc) := List.perm_middle
      _ = (r :: rest) ++ acc := rfl

/-- The modelled `sort_values` is a permutation of the input rows. -/
theorem sortRowsDesc_perm (l : List Row) : sortRowsDesc l ~ l := by
  simpa using sortRowsDesc_perm_aux l []

theorem sortRowsDesc_sorted_aux (l : List Row) :
    ∀ acc : List Row, SortedDesc acc →
      SortedDesc (l.foldl (fun a r => insertRowDesc r a) acc) := by
  induction l with
  | nil => intro acc h; exact h
  | cons r rest ih =>
    intro acc h
    exact ih _ (insertRowDesc_sorted r acc h)

/-- The modelled `sort_values` output is sorted by weakly decreasing
completeness. -/
theorem sortRowsDesc_sorted (l : List Row) : SortedDesc (sortRowsDesc l) :=
  sortRowsDesc_sorted_aux l [] List.Pairwise.nil

theorem dedupKeepFirst_sublist (key : Row → Row) :
    ∀ (seen : List Row) (l : List Row), dedupKeepFirst key seen l <+ l := by
  intro seen l
  induction l generalizing seen with
  | nil => exact List.Sublist.refl _
  | cons r rs ih =>
    by_cases h : key r ∈ seen
    · simp only [dedupKeepFirst, if_pos h]
      exact (ih seen).cons r
    · simp only [dedupKeepFirst, if_neg h]
      exact (ih (key r :: seen)).cons₂ r

theorem dedupKeepFirst_spec (key : Row → Row) :
    ∀ (seen : List Row) (l : List Row),
      (∀ x ∈ dedupKeepFirst key seen l, key x ∉ seen) ∧
      (dedupKeepFirst key seen l).Pairwise (fun a b => key a ≠ key b) := by
  intro seen l
  induction l generalizing seen with
  | nil => exact ⟨by simp [dedupKeepFirst], List.Pairwise.nil⟩
  | cons r rs ih =>
    by_cases h : key r ∈ seen
    · simp only [dedupKeepFirst, if_pos h]
      exact ih seen
    · simp only [dedupKeepFirst, if_neg h]
      rcases ih (key r :: seen) with ⟨hnot, hpw⟩
      refine ⟨?_, List.pairwise_cons.mpr ⟨?_, hpw⟩⟩
      · intro x hx
        rcases List.mem_cons.mp hx with rfl | hx
        · exact h
        · exact fun hmem => hnot x hx (List.mem_cons_of_mem _ hmem)
      · intro x hx heq
        exact hnot x hx (heq ▸ List.mem_cons_self _ _)

theorem dedupKeepFirst_represents (key : Row → Row) :
    ∀ (seen : List Row) (l : List Row), ∀ r ∈ l, key r ∉ seen →
      ∃ q ∈ dedupKeepFirst key seen l, key q = key r := by
  intro seen l
  induction l generalizing seen with
  | nil => intro r hr; exact absurd hr (List.not_mem_nil r)
  | cons r0 rs ih =>
    intro r hr hseen
    by_cases h : key r0 ∈ seen
    · simp only [dedupKeepFirst, if_pos h]
      rcases List.mem_cons.mp hr with rfl | hr
      · exact absurd h hseen
      · exact ih seen r hr hseen
    · simp only [dedupKeepFirst, if_neg h]
      rcases List.mem_cons.mp hr with rfl | hr
      · exact ⟨_, List.mem_cons_self _ _, rfl⟩
      · by_cases hkey : key r = key r0
        · exact ⟨r0, List.mem_cons_self _ _, hkey.symm⟩
        · have : key r ∉ key r0 :: seen := by
            intro hmem
            rcases List.mem_cons.mp hmem with heq | hmem
            · exact hkey heq
            · exact hseen hmem
          rcases ih (key r0 :: seen) r hr this with ⟨q, hq, hqe⟩
          exact ⟨q, List.mem_cons_of_mem _ hq, hqe⟩

theorem dedupKeepFirst_first_occ (key : Row → Row) :
    ∀ (seen : List Row) (l : List Row), ∀ q ∈ dedupKeepFirst key seen l,
      ∃ l1 l2, l = l1 ++ q :: l2 ∧ ∀ x ∈ l1, key x ≠ key q := by
  intro seen l
  induction l generalizing seen with
  | nil => intro q hq; simp [dedupKeepFirst] at hq
  | cons r0 rs ih =>
    intro q hq
    by_cases h : key r0 ∈ seen
    · simp only [dedupKeepFirst, if_pos h] at hq
      have hqnot : key q ∉ seen := (dedupKeepFirst_spec key seen rs).1 q hq
      rcases ih seen q hq with ⟨l1, l2, heq, hfree⟩
      refine ⟨r0 :: l1, l2, by rw [heq, List.cons_append], ?_⟩
      intro x hx
      rcases List.mem_cons.mp hx with rfl | hx
      · intro hcon
        exact hqnot (hcon ▸ h)
      · exact hfree x hx
    · simp only [dedupKeepFirst, if_neg h] at hq
      rcases List.mem_cons.mp hq with rfl | hq
      · exact ⟨[], rs, rfl, by simp⟩
      · have hqnot : key q ∉ key r0 :: seen :=
          (dedupKeepFirst_spec key (key r0 :: seen) rs).1 q hq
        rcases ih (key r0 :: seen) q hq with ⟨l1, l2, heq, hfree⟩
        refine ⟨r0 :: l1, l2, by rw [heq, List.cons_append], ?_⟩
        intro x hx
        rcases List.mem_cons.mp hx with rfl | hx
        · intro hcon
          exact hqnot (hcon ▸ List.mem_cons_self _ _)
        · exact hfree x hx

/-- C5 counterexample: the tie-break clause ("the member earliest in
original document order is kept among equal-completeness duplicates") is
not a property of the program.  The source sorts with
`sort_values("_score", ascending=False)` under the default unstable
quicksort kind, whose only contract is a completeness-descending order;
on the two tied records below, the reversed order is such an order, and
deduplicating in it keeps the LATER record of the group even though an
equally complete member precedes it in the document. -/
theorem C5_tie_break_not_guaranteed :
    List.Perm [[tcell "E1", tcell "y"], [tcell "E1", tcell "x"]]
      (Table.mk ["employeeid", "name"]
        [[tcell "E1", tcell "x"], [tcell "E1", tcell "y"]]).rows ∧
    SortedDesc [[tcell "E1", tcell "y"], [tcell "E1", tcell "x"]] ∧
    smart_dedup_sorted
        ⟨["employeeid", "name"], [[tcell "E1", tcell "x"], [tcell "E1", tcell "y"]]⟩
        ["employeeid"] [[tcell "E1", tcell "y"], [tcell "E1", tcell "x"]] =
      ⟨["employeeid", "name"], [[tcell "E1", tcell "y"]]⟩ ∧
    ([tcell "E1", tcell "x"] : Row) ≠ [tcell "E1", tcell "y"] ∧
    completeness [tcell "E1", tcell "x"] = completeness [tcell "E1", tcell "y"] ∧
    dedupKey ⟨["employeeid", "name"], [[tcell "E1", tcell "x"], [tcell "E1", tcell "y"]]⟩
        ["employeeid"] [tcell "E1", tcell "x"] =
      dedupKey ⟨["employeeid", "name"], [[tcell "E1", tcell "x"], [tcell "E1", tcell "y"]]⟩
        ["employeeid"] [tcell "E1", tcell "y"] := by
  refine ⟨List.Perm.swap _ _ _, by decide, by decide, by decide, rfl, by decide⟩

/-- C5 amended: for every completeness-descending ordering `s` of the
records — the orderings the unstable sort stage may produce —
deduplication on `s` yields pairwise distinct effective keys (the
key-column projection, or the full record under the fallback), every
input record's group is represented by a kept record, and the kept
record of a group has completeness at least that of every member of its
group.  Which tied member is kept depends on the sort's unspecified tie
order (see the counterexample).  `smart_deduplicate` itself is the
instance at the model's own descending ordering `sortRowsDesc t.rows`,
which satisfies both hypotheses. -/
theorem C5_smart_dedup_sorted_correct (t : Table) (subset : List String)
    (s : List Row) (hperm : List.Perm s t.rows) (hsort : SortedDesc s) :
    (smart_dedup_sorted t subset s).cols = t.cols ∧
    (smart_dedup_sorted t subset s).rows.Pairwise
      (fun a b => dedupKey t subset a ≠ dedupKey t subset b) ∧
    (∀ r ∈ t.rows, ∃ q ∈ (smart_dedup_sorted t subset s).rows,
      dedupKey t subset q = dedupKey t subset r ∧
        completeness r ≤ completeness q) ∧
    (∀ q ∈ (smart_dedup_sorted t subset s).rows, ∀ r ∈ t.rows,
      dedupKey t subset r = dedupKey t subset q →
        completeness r ≤ completeness q) ∧
    smart_deduplicate t subset = smart_dedup_sorted t subset (sortRowsDesc t.rows) ∧
    List.Perm (sortRowsDesc t.rows) t.rows ∧
    SortedDesc (sortRowsDesc t.rows) := by
  by_cases hsub : (subset.filter (fun c => t.cols.contains c)).isEmpty
  · have hdk : dedupKey t subset = id := by
      simp only [dedupKey, if_pos hsub]
    have hout : smart_dedup_sorted t subset s = ⟨t.cols, dedupKeepFirst id [] t.rows⟩ := by
      simp only [smart_dedup_sorted, if_pos hsub]
    rw [hout, hdk]
    refine ⟨rfl, (dedupKeepFirst_spec id [] t.rows).2, ?_, ?_, rfl,
      sortRowsDesc_perm t.rows, sortRowsDesc_sorted t.rows⟩
    · intro r hr
      rcases dedupKeepFirst_represents id [] t.rows r hr (List.not_mem_nil _) with
        ⟨q, hq, hqe⟩
      have hqr : q = r := hqe
      exact ⟨q, hq, hqe, le_of_eq (by rw [hqr])⟩
    · intro q hq r hr hkey
      have hrq : r = q := hkey
      subst hrq
      exact le_refl _
  · have hdk : dedupKey t subset =
        keyProj t.cols (subset.filter (fun c => t.cols.contains c)) := by
      simp only [dedupKey, if_neg hsub]
    have hout : smart_dedup_sorted t subset s =
        ⟨t.cols,
         dedupKeepFirst (keyProj t.cols (subset.filter (fun c => t.cols.contains c)))
           [] s⟩ := by
      simp only [smart_dedup_sorted, if_neg hsub]
    rw [hout, hdk]
    set kp := keyProj t.cols (subset.filter (fun c => t.cols.contains c)) with hkp
    refine ⟨rfl, (dedupKeepFirst_spec kp [] _).2, ?_, ?_, rfl,
      sortRowsDesc_perm t.rows, sortRowsDesc_sorted t.rows⟩
    · intro r hr
      have hrs : r ∈ s := hperm.mem_iff.mpr hr
      rcases dedupKeepFirst_represents kp [] _ r hrs (List.not_mem_nil _) with
        ⟨q, hq, hqe⟩
      refine ⟨q, hq, hqe, ?_⟩
      rcases dedupKeepFirst_first_occ kp [] _ q hq with ⟨l1, l2, hdecomp, hfree⟩
      have hrs2 := hrs
      rw [hdecomp] at hrs2
      have hsd := hsort
      rw [hdecomp] at hsd
      rcases List.mem_append.mp hrs2 with h1 | h2
      · exact absurd hqe.symm (hfree r h1)
      · rcases List.mem_cons.mp h2 with rfl | h2
        · exact le_refl _
        · exact (List.pairwise_cons.mp (List.pairwise_append.mp hsd).2.1).1 r h2
    · intro q hq r hr hkey
      rcases dedupKeepFirst_first_occ kp [] _ q hq with ⟨l1, l2, hdecomp, hfree⟩
      have hrs : r ∈ s := hperm.mem_iff.mpr hr
      have hrs2 := hrs
      rw [hdecomp] at hrs2
      have hsd := hsort
      rw [hdecomp] at hsd
      rcases List.mem_append.mp hrs2 with h1 | h2
      · exact absurd hkey (hfree r h1)
      · rcases List.mem_cons.mp h2 with rfl | h2
        · exact le_refl _
        · exact (List.pairwise_cons.mp (List.pairwise_append.mp hsd).2.1).1 r h2

/-- C5 witness: two records with the same employee id and different
completeness, in their descending order: the more complete one is kept. -/
theorem C5_smart_dedup_sorted_witness :
    ∃ q ∈ (smart_dedup_sorted
        ⟨["employeeid", "name"], [[tcell "E1", none], [tcell "E1", tcell "Alice"]]⟩
        ["employeeid"]
        [[tcell "E1", tcell "Alice"], [tcell "E1", none]]).rows,
      dedupKey ⟨["employeeid", "name"], [[tcell "E1", none], [tcell "E1", tcell "Alice"]]⟩
          ["employeeid"] q =
        dedupKey ⟨["employeeid", "name"], [[tcell "E1", none], [tcell "E1", tcell "Alice"]]⟩
          ["employeeid"] [tcell "E1", none] ∧
      completeness [tcell "E1", none] ≤ completeness q :=
  (C5_smart_dedup_sorted_correct
      ⟨["employeeid", "name"], [[tcell "E1", none], [tcell "E1", tcell "Alice"]]⟩
      ["employeeid"]
      [[tcell "E1", tcell "Alice"], [tcell "E1", none]]
      (List.Perm.swap _ _ _) (by decide)).2.2.1 [tcell "E1", none] (by decide)

/-! ### Character-level facts about the ASCII lowering model -/

theorem toNat_ofNat_small (n : Nat) (h : n < 55296) : (Char.ofNat n).toNat = n := by
  have hv : n.isValidChar := Or.inl h
  unfold Char.ofNat
  rw [dif_pos hv]
  rfl

theorem isUpper_iff_toNat (c : Char) :
    c.isUpper = true ↔ 65 ≤ c.toNat ∧ c.toNat ≤ 90 := by
  simp only [Char.isUpper, Bool.and_eq_true, decide_eq_true_eq]
  exact Iff.rfl

theorem lowerChar_not_upper (c : Char) : (lowerChar c).isUpper = false := by
  by_cases h : c.isUpper = true
  · have hb := (isUpper_iff_toNat c).mp h
    have hval : (Char.ofNat (c.toNat + 32)).toNat = c.toNat + 32 :=
      toNat_ofNat_small _ (by omega)
    rw [lowerChar, if_pos h]
    rw [Bool.eq_false_iff]
    intro hup
    have := (isUpper_iff_toNat _).mp hup
    omega
  · rw [lowerChar, if_neg h]
    exact Bool.not_eq_true _ |>.mp h

theorem lowerChar_idem (c : Char) : lowerChar (lowerChar c) = lowerChar c := by
  have h : lowerChar (lowerChar c) =
      if (lowerChar c).isUpper then Char.ofNat ((lowerChar c).toNat + 32)
      else lowerChar c := rfl
  rw [h, lowerChar_not_upper]
  simp

theorem lowerChar_eq_self_of_not_upper (c : Char) (h : c.isUpper = false) :
    lowerChar c = c := by
  rw [lowerChar, if_neg (by simp [h])]

theorem isDigit_not_upper (c : Char) (h : c.isDigit = true) : c.isUpper = false := by
  simp only [Char.isDigit, Bool.and_eq_true, decide_eq_true_eq] at h
  rw [Bool.eq_false_iff]
  intro hup
  have h2 := (isUpper_iff_toNat c).mp hup
  have h1 : c.toNat ≤ 57 := h.2
  omega

/-- Two strings with the same character data are equal. -/
theorem str_ext (a b : String) (h : a.data = b.data) : a = b := by
  cases a
  cases b
  exact congrArg String.mk (by simpa using h)

/-! ### The shape of `snake`'s output (C6 amended) -/

theorem collapseWsAux_mem (Q : Char → Prop) (hQu : Q '_') :
    ∀ (b : Bool) (l : List Char), (∀ c ∈ l, isSpaceC c = true ∨ Q c) →
      ∀ c ∈ collapseWsAux b l, Q c := by
  intro b l
  induction l generalizing b with
  | nil => intro _ c hc; simp [collapseWsAux] at hc
  | cons x xs ih =>
    intro h c hc
    by_cases hx : isSpaceC x = true
    · simp only [collapseWsAux, if_pos hx] at hc
      by_cases hb : b = true
      · subst hb
        simp only [if_pos rfl, List.nil_append] at hc
        exact ih true (fun d hd => h d (List.mem_cons_of_mem _ hd)) c hc
      · rw [Bool.not_eq_true] at hb
        subst hb
        simp only [Bool.false_eq_true, if_neg, List.cons_append, List.nil_append] at hc
        rcases List.mem_cons.mp hc with rfl | hc
        · exact hQu
        · exact ih true (fun d hd => h d (List.mem_cons_of_mem _ hd)) c hc
    · simp only [collapseWsAux, if_neg hx] at hc
      rcases List.mem_cons.mp hc with rfl | hc
      · rcases h c (List.mem_cons_self _ _) with hsp | hQ
        · exact absurd hsp hx
        · exact hQ
      · exact ih false (fun d hd => h d (List.mem_cons_of_mem _ hd)) c hc

theorem collapseWsAux_no_space (b : Bool) (l : List Char) :
    ∀ c ∈ collapseWsAux b l, isSpaceC c = false := by
  induction l generalizing b with
  | nil => intro c hc; simp [collapseWsAux] at hc
  | cons x xs ih =>
    intro c hc
    by_cases hx : isSpaceC x = true
    · simp only [collapseWsAux, if_pos hx] at hc
      rcases List.mem_append.mp hc with h1 | h2
      · have : c = '_' := by
          rcases b with _ | _ <;> simp_all
        subst this
        decide
      · exact ih true c h2
    · simp only [collapseWsAux, if_neg hx] at hc
      rcases List.mem_cons.mp hc with rfl | hc
      · exact Bool.not_eq_true _ |>.mp hx
      · exact ih false c hc

theorem head_dropWhile_not (p : Char → Bool) {l : List Char} {c : Char}
    (h : (l.dropWhile p).head? = some c) : p c = false := by
  induction l with
  | nil => simp [List.dropWhile] at h
  | cons x xs ih =>
    by_cases hx : p x = true
    · rw [List.dropWhile_cons, if_pos hx] at h
      exact ih h
    · rw [List.dropWhile_cons, if_neg hx] at h
      simp only [List.head?_cons, Option.some.injEq] at h
      subst h
      exact Bool.not_eq_true _ |>.mp hx

theorem trimUnder_prefix (l : List Char) :
    (trimUnder l).IsPrefix (l.dropWhile (fun x => x == '_')) := by
  unfold trimUnder
  have hsuf : (((l.dropWhile (fun c => c == '_')).reverse).dropWhile
      (fun c => c == '_')).IsSuffix (l.dropWhile (fun c => c == '_')).reverse :=
    List.dropWhile_suffix _
  have h2 := List.reverse_prefix.mpr hsuf
  rwa [List.reverse_reverse] at h2

theorem trimUnder_head {l : List Char} {c : Char}
    (h : (trimUnder l).head? = some c) : (c == '_') = false := by
  rcases trimUnder_prefix l with ⟨t, ht⟩
  rcases hr : trimUnder l with _ | ⟨a, r⟩
  · rw [hr] at h
    simp at h
  · rw [hr] at h ht
    simp only [List.head?_cons, Option.some.injEq] at h
    have hh : (l.dropWhile (fun x => x == '_')).head? = some a := by
      rw [← ht]
      rfl
    exact h ▸ head_dropWhile_not (fun x => x == '_') hh

theorem trimUnder_getLast {l : List Char} {c : Char}
    (h : (trimUnder l).getLast? = some c) : (c == '_') = false := by
  unfold trimUnder at h
  rw [List.getLast?_reverse] at h
  exact head_dropWhile_not (fun x => x == '_') h

theorem trimUnder_subset {l : List Char} : ∀ c ∈ trimUnder l, c ∈ l := by
  intro c hc
  unfold trimUnder at hc
  rw [List.mem_reverse] at hc
  have h1 := (List.dropWhile_suffix (l := (l.dropWhile (fun c => c == '_')).reverse)
    (fun c => c == '_')).subset hc
  rw [List.mem_reverse] at h1
  exact (List.dropWhile_suffix (fun c => c == '_')).subset h1

/-- Every character of `snakeCore`'s output is a word character, not
whitespace, and fixed under lowering. -/
theorem snakeCore_chars (l : List Char) :
    ∀ c ∈ snakeCore l,
      isWordCharB c = true ∧ isSpaceC c = false ∧ lowerChar c = c := by
  intro c hc
  unfold snakeCore at hc
  have hc2 := trimUnder_subset c hc
  have hword : isWordCharB c = true ∧ lowerChar c = c := by
    refine collapseWsAux_mem (fun d => isWordCharB d = true ∧ lowerChar d = d)
      ⟨by decide, by decide⟩ false _ ?_ c hc2
    intro d hd
    rw [List.mem_filter] at hd
    rcases hd with ⟨hdm, hdk⟩
    rcases Bool.or_eq_true _ _ |>.mp hdk with hw | hs
    · refine Or.inr ⟨hw, ?_⟩
      rcases List.mem_map.mp hdm with ⟨e, _, rfl⟩
      exact lowerChar_idem e
    · exact Or.inl hs
  have hns : isSpaceC c = false := collapseWsAux_no_space false _ c hc2
  exact ⟨hword.1, hns, hword.2⟩

/-- C6 amended: `snake` lowercases, strips every character that is
neither a word character nor whitespace (so `%` and `&` are deleted, not
replaced by tokens), collapses whitespace to underscores, trims edge
underscores, and falls back to "column" when nothing remains: its output
is always nonempty, made of lowering-fixed word characters with no
whitespace, has no leading or trailing underscore, and on the concrete
inputs `%` and `&` simply disappear. -/
theorem C6_snake_characterization (s : String) :
    (snake s).data ≠ [] ∧
    (∀ c ∈ (snake s).data,
      isWordCharB c = true ∧ isSpaceC c = false ∧ lowerChar c = c) ∧
    (∀ c, (snake s).data.head? = some c → (c == '_') = false) ∧
    (∀ c, (snake s).data.getLast? = some c → (c == '_') = false) ∧
    (snakeCore s.data = [] → snake s = "column") ∧
    snake "Profit %" = "profit" ∧ snake "P & L" = "p_l" := by
  by_cases hempty : (snakeCore s.data).isEmpty = true
  · have hsn : snake s = "column" := by
      rw [snake, if_pos hempty]
    rw [hsn]
    refine ⟨by decide, ?_, by decide, by decide, fun _ => rfl, rfl, rfl⟩
    intro c hc
    fin_cases hc <;> exact ⟨by decide, by decide, by decide⟩
  · have hsn : snake s = ⟨snakeCore s.data⟩ := by
      rw [snake, if_neg hempty]
    rw [hsn]
    refine ⟨?_, snakeCore_chars s.data, ?_, ?_, ?_, rfl, rfl⟩
    · intro hnil
      exact hempty (List.isEmpty_iff.mpr hnil)
    · intro c hc
      exact trimUnder_head hc
    · intro c hc
      exact trimUnder_getLast hc
    · intro hnil
      exact absurd (List.isEmpty_iff.mpr hnil) hempty

/-- C6 amended witness. -/
theorem C6_snake_characterization_witness :
    (snake "Profit %").data ≠ [] ∧ snake "Profit %" = "profit" :=
  ⟨(C6_snake_characterization "Profit %").1,
   (C6_snake_characterization "Profit %").2.2.2.2.2.1⟩

/-! ### Decimal rendering: digits only, injective -/

theorem digitChar_isDigit (d : Nat) : (digitChar d).isDigit = true := by
  unfold digitChar
  split <;> decide

theorem digitChar_toNat (d : Nat) (h : d < 10) : (digitChar d).toNat - 48 = d := by
  interval_cases d <;> decide

theorem natDigits_digits (fuel : Nat) :
    ∀ (n : Nat) (acc : List Char), (∀ c ∈ acc, c.isDigit = true) →
      ∀ c ∈ natDigits fuel n acc, c.isDigit = true := by
  induction fuel with
  | zero =>
    intro n acc hacc
    simpa [natDigits] using hacc
  | succ f ih =>
    intro n acc hacc
    cases n with
    | zero => simpa [natDigits] using hacc
    | succ m =>
      rw [natDigits]
      refine ih ((m + 1) / 10) _ ?_
      intro c hc
      rcases List.mem_cons.mp hc with rfl | hc
      · exact digitChar_isDigit _
      · exact hacc c hc

theorem natStr_digits (n : Nat) : ∀ c ∈ (natStr n).data, c.isDigit = true := by
  by_cases h : n = 0
  · subst h
    decide
  · rw [natStr, if_neg h]
    exact natDigits_digits n n [] (by simp)

theorem foldl_digits_shift (l : List Char) :
    ∀ a : Nat,
      l.foldl (fun x c => 10 * x + (c.toNat - 48)) a =
        a * 10 ^ l.length + l.foldl (fun x c => 10 * x + (c.toNat - 48)) 0 := by
  induction l with
  | nil => intro a; simp
  | cons c t ih =>
    intro a
    rw [List.foldl_cons, List.foldl_cons, ih (10 * a + (c.toNat - 48)),
      ih (10 * 0 + (c.toNat - 48))]
    simp only [List.length_cons, pow_succ]
    ring

theorem digitsVal_natDigits (fuel : Nat) :
    ∀ (n : Nat) (acc : List Char), n ≤ fuel →
      digitsVal (natDigits fuel n acc) = n * 10 ^ acc.length + digitsVal acc := by
  induction fuel with
  | zero =>
    intro n acc h
    interval_cases n
    simp [natDigits]
  | succ f ih =>
    intro n acc h
    cases n with
    | zero => simp [natDigits]
    | succ m =>
      rw [natDigits]
      have hle : (m + 1) / 10 ≤ f := by
        have := Nat.div_lt_self (Nat.succ_pos m) (show 1 < 10 by omega)
        omega
      rw [ih ((m + 1) / 10) _ hle]
      have hdv : digitsVal (digitChar ((m + 1) % 10) :: acc) =
          ((m + 1) % 10) * 10 ^ acc.length + digitsVal acc := by
        unfold digitsVal
        rw [List.foldl_cons, foldl_digits_shift]
        rw [Nat.mul_zero, Nat.zero_add, digitChar_toNat _ (Nat.mod_lt _ (by omega))]
      rw [hdv, List.length_cons, pow_succ]
      have hsplit : 10 * ((m + 1) / 10) + (m + 1) % 10 = m + 1 := Nat.div_add_mod _ _
      calc (m + 1) / 10 * (10 ^ acc.length * 10) +
            ((m + 1) % 10 * 10 ^ acc.length + digitsVal acc)
          = (10 * ((m + 1) / 10) + (m + 1) % 10) * 10 ^ acc.length + digitsVal acc := by
            ring
        _ = (m + 1) * 10 ^ acc.length + digitsVal acc := by rw [hsplit]

theorem digitsVal_natStr (n : Nat) : digitsVal (natStr n).data = n := by
  by_cases h : n = 0
  · subst h
    decide
  · rw [natStr, if_neg h]
    have : digitsVal (natDigits n n []) = n * 10 ^ (0 : Nat) + digitsVal [] :=
      digitsVal_natDigits n n [] (le_refl n)
    simpa [digitsVal] using this

theorem natStr_inj {m n : Nat} (h : natStr m = natStr n) : m = n := by
  have h2 := congrArg (fun s => digitsVal s.data) h
  simpa [digitsVal_natStr] using h2

theorem natStr_ne_nil (n : Nat) : (natStr n).data ≠ [] := by
  intro hnil
  by_cases h : n = 0
  · subst h
    exact absurd hnil (by decide)
  · have := digitsVal_natStr n
    rw [hnil] at this
    exact h (by simpa [digitsVal] using this.symm)

/-- Splitting at a final underscore followed by digits is unambiguous:
digit strings contain no underscore, so the underscore shown is the last
one. -/
theorem underscore_digits_cancel :
    ∀ (l1 l2 d1 d2 : List Char),
      (∀ c ∈ d1, c.isDigit = true) → (∀ c ∈ d2, c.isDigit = true) →
      l1 ++ '_' :: d1 = l2 ++ '_' :: d2 → l1 = l2 ∧ d1 = d2 := by
  intro l1
  induction l1 with
  | nil =>
    intro l2 d1 d2 h1 _ heq
    cases l2 with
    | nil => simpa using heq
    | cons e l2t =>
      simp only [List.nil_append, List.cons_append, List.cons.injEq] at heq
      exfalso
      have hmem : '_' ∈ d1 := by
        rw [heq.2]
        exact List.mem_append_right _ (List.mem_cons_self _ _)
      exact absurd (h1 '_' hmem) (by decide)
  | cons c l1t ih =>
    intro l2 d1 d2 h1 h2 heq
    cases l2 with
    | nil =>
      simp only [List.nil_append, List.cons_append, List.cons.injEq] at heq
      exfalso
      have hmem : '_' ∈ d2 := by
        rw [← heq.2]
        exact List.mem_append_right _ (List.mem_cons_self _ _)
      exact absurd (h2 '_' hmem) (by decide)
    | cons e l2t =>
      simp only [List.cons_append, List.cons.injEq] at heq
      rcases ih l2t d1 d2 h1 h2 heq.2 with ⟨hl, hd⟩
      exact ⟨by rw [heq.1, hl], hd⟩

theorem nthName_zero (b : String) : nthName b 0 = b := rfl

theorem nthName_pos (b : String) {j : Nat} (h : j ≠ 0) :
    nthName b j = b ++ "_" ++ natStr j := by
  unfold nthName
  rw [if_neg h]

theorem nthName_data (b : String) (n : Nat) (h : n ≠ 0) :
    (nthName b n).data = b.data ++ '_' :: (natStr n).data := by
  rw [nthName_pos b h]
  show ((b ++ "_") ++ natStr n).data = _
  rw [String.data_append, String.data_append]
  simp

/-- The only ways two emitted names can coincide. -/
theorem nthName_eq_cases {b1 b2 : String} {n m : Nat}
    (h : nthName b1 n = nthName b2 m) :
    (b1 = b2 ∧ n = m) ∨
    (n = 0 ∧ m ≠ 0 ∧ b1 = b2 ++ "_" ++ natStr m) ∨
    (m = 0 ∧ n ≠ 0 ∧ b2 = b1 ++ "_" ++ natStr n) := by
  by_cases hn : n = 0 <;> by_cases hm : m = 0
  · subst hn
    subst hm
    rw [nthName_zero, nthName_zero] at h
    exact Or.inl ⟨h, rfl⟩
  · subst hn
    rw [nthName_zero, nthName_pos b2 hm] at h
    exact Or.inr (Or.inl ⟨rfl, hm, h⟩)
  · subst hm
    rw [nthName_zero, nthName_pos b1 hn] at h
    exact Or.inr (Or.inr ⟨rfl, hn, h.symm⟩)
  · have hdata := congrArg String.data h
    rw [nthName_data b1 n hn, nthName_data b2 m hm] at hdata
    rcases underscore_digits_cancel b1.data b2.data (natStr n).data (natStr m).data
      (natStr_digits n) (natStr_digits m) hdata with ⟨hb, hd⟩
    have hbs : b1 = b2 := str_ext _ _ hb
    have hnm : n = m := natStr_inj (str_ext _ _ hd)
    exact Or.inl ⟨hbs, hnm⟩

/-! ### The numbering of `standardize_column_names` -/

theorem stdFold_eq_specAux (cs : List String) :
    ∀ (pre : List String) (seen : List (String × Nat)),
      (∀ b : String, (seen.lookup b).getD 0 = pre.countP (fun c => snake c == b)) →
      stdFold cs seen = specNamesAux pre cs := by
  induction cs with
  | nil => intro pre seen _; rfl
  | cons c cs ih =>
    intro pre seen h
    simp only [stdFold, specNamesAux]
    refine congrArg₂ _ ?_ ?_
    · rw [h (snake c)]
    · apply ih
      intro b
      by_cases hb : b = snake c
      · subst hb
        rw [List.countP_append]
        simp only [List.lookup_cons, beq_self_eq_true, if_pos]
        rw [h (snake c)]
        simp [List.countP_cons]
      · have hbeq : (b == snake c) = false := beq_eq_false_iff_ne.mpr hb
        rw [List.countP_append]
        simp only [List.lookup_cons, hbeq]
        rw [h b]
        have : (snake c == b) = false := beq_eq_false_iff_ne.mpr (Ne.symm hb)
        simp [List.countP_cons, this]

/-- `standardize_column_names` emits exactly the count-based numbering:
the first occurrence of a canonical base keeps the bare name, the n-th
occurrence is suffixed `_n`, in first-seen order. -/
theorem standardizeNames_eq_specNames (cs : List String) :
    standardizeNames cs = specNames cs :=
  stdFold_eq_specAux cs [] [] (fun b => by simp)

theorem mem_specNamesAux (q : String) :
    ∀ (cs pre : List String), q ∈ specNamesAux pre cs →
      ∃ c2 m, c2 ∈ cs ∧ q = nthName (snake c2) m ∧
        pre.countP (fun x => snake x == snake c2) ≤ m ∧
        m ≤ pre.length + cs.length := by
  intro cs
  induction cs with
  | nil => intro pre h; simp [specNamesAux] at h
  | cons c cs ih =>
    intro pre h
    rw [specNamesAux] at h
    rcases List.mem_cons.mp h with heq | htail
    · refine ⟨c, _, List.mem_cons_self _ _, heq, le_refl _, ?_⟩
      have hcl : pre.countP (fun x => snake x == snake c) ≤ pre.length :=
        List.countP_le_length _
      simp only [List.length_cons]
      omega
    · rcases ih (pre ++ [c]) htail with ⟨c2, m, hc2, hq, hle, hbound⟩
      refine ⟨c2, m, List.mem_cons_of_mem _ hc2, hq, ?_, ?_⟩
      · rw [List.countP_append] at hle
        omega
      · rw [List.length_append] at hbound
        simp only [List.length_singleton, List.length_cons, List.length_nil]
          at hbound ⊢
        omega

theorem specNamesAux_nodup (N : Nat) (S : String → Prop)
    (hcross : ∀ c1 c2 : String, S c1 → S c2 → ∀ k : Nat, k + 1 ≤ N →
      snake c2 ≠ snake c1 ++ "_" ++ natStr (k + 1)) :
    ∀ (cs pre : List String), (∀ c ∈ pre, S c) → (∀ c ∈ cs, S c) →
      pre.length + cs.length ≤ N → (specNamesAux pre cs).Nodup := by
  intro cs
  induction cs with
  | nil => intro pre _ _ _; exact List.nodup_nil
  | cons c cs ih =>
    intro pre hpre hcs hlen
    rw [specNamesAux]
    refine List.nodup_cons.mpr ⟨?_, ih (pre ++ [c]) ?_ ?_ ?_⟩
    · intro hmem
      rcases mem_specNamesAux _ cs (pre ++ [c]) hmem with ⟨c2, m, hc2, hq, hle, hbound⟩
      have hcount : (pre ++ [c]).countP (fun x => snake x == snake c2) ≤ m := hle
      have hSc : S c := hcs c (List.mem_cons_self _ _)
      have hSc2 : S c2 := hcs c2 (List.mem_cons_of_mem _ hc2)
      have hlen2 : pre.length + (cs.length + 1) ≤ N := by
        simpa using hlen
      rcases nthName_eq_cases hq with ⟨hbase, hnm⟩ | ⟨_, hm0, hb⟩ | ⟨_, hn0, hb⟩
      · have hpredeq : (fun x => snake x == snake c2) =
            (fun x => snake x == snake c) := by
          funext x
          rw [hbase]
        rw [hpredeq, List.countP_append] at hcount
        have hone : List.countP (fun x => snake x == snake c) [c] = 1 := by
          simp [List.countP_cons]
        omega
      · have hmge : m - 1 + 1 = m := by omega
        refine hcross c2 c hSc2 hSc (m - 1) ?_ ?_
        · rw [List.length_append, List.length_singleton] at hbound
          omega
        · rw [hmge]
          exact hb
      · set n := pre.countP (fun x => snake x == snake c) with hn
        have hnlen : n ≤ pre.length := List.countP_le_length _
        have hnge : n - 1 + 1 = n := by omega
        refine hcross c c2 hSc hSc2 (n - 1) ?_ ?_
        · omega
        · rw [hnge]
          exact hb
    · intro d hd
      rcases List.mem_append.mp hd with hd | hd
      · exact hpre d hd
      · rw [List.mem_singleton] at hd
        subst hd
        exact hcs d (List.mem_cons_self _ _)
    · intro d hd
      exact hcs d (List.mem_cons_of_mem _ hd)
    · rw [List.length_append, List.length_singleton]
      simp only [List.length_cons] at hlen
      omega

/-- C7 amended: the standardizer renames the n-th occurrence of a
canonical base to the bare base (n = 0) or `base_n`, in first-seen order
(equality with the count-based restatement `specNames`); and the output
names are pairwise distinct provided no column's canonical form equals
another column's canonical form followed by an underscore and a decimal
numeral (the pattern of the C7 counterexample). -/
theorem C7_standardize_unique (cs : List String) :
    standardizeNames cs = specNames cs ∧
    ((∀ c1 ∈ cs, ∀ c2 ∈ cs, ∀ k : Nat, k + 1 ≤ cs.length →
        snake c2 ≠ snake c1 ++ "_" ++ natStr (k + 1)) →
      (standardizeNames cs).Nodup) := by
  refine ⟨standardizeNames_eq_specNames cs, fun h => ?_⟩
  rw [standardizeNames_eq_specNames cs]
  exact specNamesAux_nodup cs.length (fun c => c ∈ cs)
    (fun c1 c2 h1 h2 k hk => h c1 h1 c2 h2 k hk) cs []
    (by simp) (fun c hc => hc) (by simp)

/-- C7 amended witness: duplicated plain names get distinct suffixes. -/
theorem C7_standardize_unique_witness :
    (standardizeNames ["a", "a"]).Nodup :=
  (C7_standardize_unique ["a", "a"]).2 (by
    intro c1 h1 c2 h2 k hk
    simp only [List.length_cons, List.length_nil] at hk
    have hk2 : k ≤ 1 := by omega
    clear hk
    interval_cases k <;> fin_cases h1 <;> fin_cases h2 <;> decide)

/-! ### Fixed points of `snake` (C9 amended) -/

theorem isDigit_not_space (c : Char) (h : c.isDigit = true) :
    isSpaceC c = false := by
  rw [Bool.eq_false_iff]
  intro hs
  simp only [isSpaceC, Bool.or_eq_true, beq_iff_eq] at hs
  rcases hs with ((((h1 | h1) | h1) | h1) | h1) | h1 <;>
    (subst h1; exact absurd h (by decide))

/-- Good name strings: nonempty, every character a lowering-fixed
non-whitespace word character, no edge underscore. -/
theorem snake_output_good (s : String) :
    (snake s).data ≠ [] ∧
    (∀ c ∈ (snake s).data,
      isWordCharB c = true ∧ isSpaceC c = false ∧ lowerChar c = c) ∧
    (∀ c, (snake s).data.head? = some c → (c == '_') = false) ∧
    (∀ c, (snake s).data.getLast? = some c → (c == '_') = false) := by
  by_cases hempty : (snakeCore s.data).isEmpty = true
  · have hsn : snake s = "column" := by
      rw [snake, if_pos hempty]
    rw [hsn]
    refine ⟨by decide, ?_, by decide, by decide⟩
    intro c hc
    fin_cases hc <;> exact ⟨by decide, by decide, by decide⟩
  · have hsn : snake s = ⟨snakeCore s.data⟩ := by
      rw [snake, if_neg hempty]
    rw [hsn]
    refine ⟨?_, snakeCore_chars s.data, ?_, ?_⟩
    · intro hnil
      exact hempty (List.isEmpty_iff.mpr hnil)
    · intro c hc
      exact trimUnder_head hc
    · intro c hc
      exact trimUnder_getLast hc

theorem collapseWsAux_id (l : List Char) :
    ∀ b : Bool, (∀ c ∈ l, isSpaceC c = false) → collapseWsAux b l = l := by
  induction l with
  | nil => intro b _; rfl
  | cons c cs ih =>
    intro b h
    have hc : isSpaceC c = false := h c (List.mem_cons_self _ _)
    rw [collapseWsAux, if_neg (by simp [hc])]
    rw [ih false (fun d hd => h d (List.mem_cons_of_mem _ hd))]

theorem dropWhile_underscore_id (l : List Char)
    (h : ∀ c, l.head? = some c → (c == '_') = false) :
    l.dropWhile (fun c => c == '_') = l := by
  cases l with
  | nil => rfl
  | cons a t =>
    rw [List.dropWhile_cons, if_neg (by simp [h a rfl])]

theorem trimUnder_id (l : List Char)
    (hh : ∀ c, l.head? = some c → (c == '_') = false)
    (hl : ∀ c, l.getLast? = some c → (c == '_') = false) :
    trimUnder l = l := by
  unfold trimUnder
  rw [dropWhile_underscore_id l hh]
  rw [dropWhile_underscore_id l.reverse
    (fun c hc => hl c (by rwa [List.head?_reverse] at hc))]
  exact List.reverse_reverse l

/-- A string whose characters are lowering-fixed non-whitespace word
characters, with no edge underscore, is a fixed point of `snakeCore`. -/
theorem snakeCore_fixed (l : List Char)
    (hchar : ∀ c ∈ l, isWordCharB c = true ∧ isSpaceC c = false ∧ lowerChar c = c)
    (hh : ∀ c, l.head? = some c → (c == '_') = false)
    (hl : ∀ c, l.getLast? = some c → (c == '_') = false) :
    snakeCore l = l := by
  unfold snakeCore
  have hmap : l.map lowerChar = l := by
    rw [List.map_congr_left (fun a ha => (hchar a ha).2.2)]
    exact List.map_id l
  rw [hmap]
  have hfil : l.filter (fun c => isWordCharB c || isSpaceC c) = l := by
    refine List.filter_eq_self.mpr ?_
    intro a ha
    simp [(hchar a ha).1]
  rw [hfil]
  rw [show collapseWs l = l from
    collapseWsAux_id l false (fun c hc => (hchar c hc).2.1)]
  exact trimUnder_id l hh hl

/-- Fixed-point property at the string level. -/
theorem snake_fixed_of_good (b : String)
    (hne : b.data ≠ [])
    (hchar : ∀ c ∈ b.data,
      isWordCharB c = true ∧ isSpaceC c = false ∧ lowerChar c = c)
    (hh : ∀ c, b.data.head? = some c → (c == '_') = false)
    (hl : ∀ c, b.data.getLast? = some c → (c == '_') = false) :
    snake b = b := by
  have hcore : snakeCore b.data = b.data := snakeCore_fixed b.data hchar hh hl
  rw [snake, hcore, if_neg (by simp [List.isEmpty_iff, hne])]

/-- `snake` is idempotent. -/
theorem snake_idem (s : String) : snake (snake s) = snake s := by
  rcases snake_output_good s with ⟨h1, h2, h3, h4⟩
  exact snake_fixed_of_good (snake s) h1 h2 h3 h4

/-- Every name the standardizer emits is a fixed point of `snake`. -/
theorem snake_nthName_fixed (s : String) (m : Nat) :
    snake (nthName (snake s) m) = nthName (snake s) m := by
  rcases snake_output_good s with ⟨h1, h2, h3, h4⟩
  by_cases hm : m = 0
  · subst hm
    rw [nthName_zero]
    exact snake_idem s
  · rw [nthName_pos _ hm]
    have hdata : (snake s ++ "_" ++ natStr m).data =
        (snake s).data ++ '_' :: (natStr m).data := by
      rw [String.data_append, String.data_append]
      simp
    refine snake_fixed_of_good _ ?_ ?_ ?_ ?_
    · rw [hdata]
      simp [h1]
    · rw [hdata]
      intro c hc
      rcases List.mem_append.mp hc with hcb | hcd
      · exact h2 c hcb
      · rcases List.mem_cons.mp hcd with rfl | hcd
        · exact ⟨by decide, by decide, by decide⟩
        · have hdig := natStr_digits m c hcd
          refine ⟨?_, isDigit_not_space c hdig, ?_⟩
          · simp [isWordCharB, hdig]
          · exact lowerChar_eq_self_of_not_upper c (isDigit_not_upper c hdig)
    · rw [hdata]
      intro c hc
      rcases hb : (snake s).data with _ | ⟨a, t⟩
      · exact absurd hb h1
      · rw [hb] at hc
        simp only [List.cons_append, List.head?_cons, Option.some.injEq] at hc
        refine hc ▸ h3 a ?_
        rw [hb]
        rfl
    · rw [hdata]
      intro c hc
      rw [List.getLast?_append] at hc
      have hdne : ('_' :: (natStr m).data).getLast? = (natStr m).data.getLast? := by
        rcases hd : (natStr m).data with _ | ⟨a, t⟩
        · exact absurd hd (natStr_ne_nil m)
        · simp
      rw [hdne] at hc
      rcases ho : (natStr m).data.getLast? with _ | a
      · rw [ho] at hc
        simp only [Option.none_or] at hc
        exact absurd (List.getLast?_eq_none_iff.mp ho) (natStr_ne_nil m)
      · rw [ho] at hc
        simp only [Option.or_some, Option.some.injEq] at hc
        have ha := natStr_digits m a (List.mem_of_getLast?_eq_some ho)
        rw [hc] at ha
        rw [Bool.eq_false_iff]
        intro hcon
        rw [beq_iff_eq] at hcon
        subst hcon
        exact absurd ha (by decide)

theorem specNamesAux_id (ns : List String) :
    ∀ pre : List String, (∀ x ∈ ns, snake x = x) → ns.Nodup →
      (∀ x ∈ ns, pre.countP (fun y => snake y == snake x) = 0) →
      specNamesAux pre ns = ns := by
  induction ns with
  | nil => intro pre _ _ _; rfl
  | cons x ns ih =>
    intro pre hfix hnd hcount
    rw [specNamesAux]
    have hx : snake x = x := hfix x (List.mem_cons_self _ _)
    have hc0 : pre.countP (fun y => snake y == snake x) = 0 :=
      hcount x (List.mem_cons_self _ _)
    rw [hc0, nthName_zero, hx]
    refine congrArg _ (ih (pre ++ [x]) ?_ (List.nodup_cons.mp hnd).2 ?_)
    · intro y hy
      exact hfix y (List.mem_cons_of_mem _ hy)
    · intro y hy
      rw [List.countP_append, hcount y (List.mem_cons_of_mem _ hy)]
      have hxy : x ≠ y := fun h => (List.nodup_cons.mp hnd).1 (h ▸ hy)
      have : (snake x == snake y) = false := by
        rw [hx, hfix y (List.mem_cons_of_mem _ hy)]
        exact beq_eq_false_iff_ne.mpr hxy
      simp [List.countP_cons, this]

/-- C9 amended: standardizing an already-standardized column-name list
whose names are pairwise distinct is a no-op.  (When the first pass emits
colliding names — possible, see the C7 counterexample — a second pass
renames the repeated names again.) -/
theorem C9_standardize_idem_of_nodup (cs : List String)
    (h : (standardizeNames cs).Nodup) :
    standardizeNames (standardizeNames cs) = standardizeNames cs := by
  have hfix : ∀ x ∈ standardizeNames cs, snake x = x := by
    intro x hx
    rw [standardizeNames_eq_specNames] at hx
    rcases mem_specNamesAux x cs [] hx with ⟨c2, m, _, hq, _, _⟩
    rw [hq]
    exact snake_nthName_fixed c2 m
  rw [standardizeNames_eq_specNames (standardizeNames cs)]
  exact specNamesAux_id (standardizeNames cs) [] hfix h (by simp)

/-- C9 amended witness: a distinct, already-standardized list is fixed. -/
theorem C9_standardize_idem_witness :
    standardizeNames (standardizeNames ["First Name", "Salary"]) =
      standardizeNames ["First Name", "Salary"] :=
  C9_standardize_idem_of_nodup ["First Name", "Salary"] (by decide)

end SheetHub
